import Mathlib

/-!
Verification development for the household-energy forecasting notebook
(`Household_energy_student_version.ipynb`).  The notebook's pipeline cells
are exercise placeholders; the components they are meant to hold (Cleaner,
Split Manager, Feature Selector, Model Selector) are modelled here from the
specification, while the concrete ingestion and warning-setup cells are
embedded directly from the notebook's code.
-/

/-- A row of the consumption series: a timestamp (seconds since the Unix
epoch) and a consumption reading; `none` models a null reading. -/
structure Row where
  ts : Nat
  consumption : Option Int
deriving DecidableEq, Repr

/-- A reading that is valid for carry-forward purposes: present and non-zero. -/
def validReading : Option Int → Bool
  | some v => v != 0
  | none => false

/-- Modelled from the spec: the zero-value forward-fill stage of the Cleaner
(the notebook's zero-fill solution cell is an empty placeholder).  Each
`consumption == 0` reading is replaced by the carried last non-zero, non-null
reading; the carry is updated only at non-zero, non-null readings.  A zero
reading before any valid reading exists is dropped (the spec's documented
"drop leading rows" policy for the leading-defect edge case). -/
def zeroFillAux (carry : Option Int) : List Row → List Row
  | [] => []
  | r :: rs =>
    match r.consumption with
    | some v =>
      if v = 0 then
        match carry with
        | some w => ⟨r.ts, some w⟩ :: zeroFillAux (some w) rs
        | none => zeroFillAux none rs
      else
        ⟨r.ts, some v⟩ :: zeroFillAux (some v) rs
    | none => r :: zeroFillAux carry rs

/-- Zero-value forward-fill over a whole series, starting with no carry. -/
def zeroFill (rows : List Row) : List Row := zeroFillAux none rows

/-- The carry held by the forward-fill scan after reading `rows`, starting
from carry `c`: the nearest preceding non-zero, non-null reading, or `c` if
none occurs in `rows`. -/
def lastValidFrom (c : Option Int) : List Row → Option Int
  | [] => c
  | r :: rs =>
    if validReading r.consumption then lastValidFrom r.consumption rs
    else lastValidFrom c rs

/-- The last non-zero, non-null reading of a series, if any: the value the
spec's carry-forward rule uses for a defect appearing right after `rows`. -/
def lastValid (rows : List Row) : Option Int := lastValidFrom none rows

/-- The hour bucket a row falls into when resampling to an hourly grid. -/
def hourKey (r : Row) : Nat := r.ts / 3600

/-- Total consumption of a group of rows (null readings contribute 0). -/
def groupSum (rs : List Row) : Int :=
  rs.foldl (fun acc s => acc + s.consumption.getD 0) 0

/-- One scan of the resampler: `curKey` is the hour bucket being
accumulated and `acc` the consumption summed into it so far; reaching a row
of a different bucket emits the finished hour (stamped with its hour start)
and opens a new one. -/
def resampleAux (curKey : Nat) (acc : Int) : List Row → List Row
  | [] => [⟨curKey * 3600, some acc⟩]
  | r :: rs =>
    if hourKey r == curKey then
      resampleAux curKey (acc + r.consumption.getD 0) rs
    else
      ⟨curKey * 3600, some acc⟩ :: resampleAux (hourKey r) (r.consumption.getD 0) rs

/-- Modelled from the spec: the hourly-resampling stage of the Cleaner (the
notebook's resampling solution cell is an empty placeholder).  Rows in the
same hour bucket are aggregated by summation (the spec's "energy
accumulated" option, the documented choice here), and each output row is
stamped with the start of its hour. -/
def resampleHourly : List Row → List Row
  | [] => []
  | r :: rs => resampleAux (hourKey r) (r.consumption.getD 0) rs

/-- Modelled from the spec: the null forward-fill stage of the Cleaner (the
notebook's null-fill solution cell is an empty placeholder).  Each null
reading is replaced by the carried last reported value. -/
def nullFillAux (carry : Option Int) : List Row → List Row
  | [] => []
  | r :: rs =>
    match r.consumption with
    | some v => r :: nullFillAux (some v) rs
    | none => ⟨r.ts, carry⟩ :: nullFillAux carry rs

/-- Null forward-fill over a whole series, starting with no carry. -/
def nullFill (rows : List Row) : List Row := nullFillAux none rows

/-- Modelled from the spec: the Cleaner pipeline — zero-value forward-fill,
then hourly resampling, then null forward-fill (the notebook's cleaning
solution cells are empty placeholders). -/
def cleaner (rows : List Row) : List Row :=
  nullFill (resampleHourly (zeroFill rows))

/-- Every reading of the series is present and non-zero. -/
def noDefects (rows : List Row) : Bool :=
  rows.all (fun r => validReading r.consumption)

/-- The timestamps continue a contiguous hourly chain started at `t`. -/
def gridFrom (t : Nat) : List Row → Bool
  | [] => true
  | r :: rs => r.ts == t + 3600 && gridFrom r.ts rs

/-- The timestamps form a contiguous hourly grid aligned to hour starts. -/
def hourlyGrid : List Row → Bool
  | [] => true
  | r :: rs => r.ts % 3600 == 0 && gridFrom r.ts rs

/-- A pandas-style data frame as the ingestion cells use it: a row index of
derived timestamps (seconds since the Unix epoch) and named integer-valued
columns. -/
structure Frame where
  index : List Nat
  columns : List (String × List Int)
deriving DecidableEq, Repr

/-- `pd.to_datetime(-, unit='s')` on one field: a `UNIX_TS` value of `s`
whole seconds denotes the datetime `s` seconds after the Unix epoch. -/
def toDatetimeSeconds (s : Int) : Nat := s.toNat

/-- Column lookup, `frame['name']`. -/
def getColumn (name : String) (f : Frame) : List Int :=
  match f.columns.find? (fun c => c.1 == name) with
  | some c => c.2
  | none => []

/-- `frame.drop(labels=name, axis=1)`. -/
def dropColumn (name : String) (f : Frame) : Frame :=
  ⟨f.index, f.columns.filter (fun c => c.1 != name)⟩

/-- The electricity ingestion cell, embedded from the notebook:
`energy_data = raw_data.copy()`, then
`energy_data.index = pd.to_datetime(energy_data['UNIX_TS'], unit='s').values`,
then `energy_data = energy_data.drop(labels='UNIX_TS', axis=1)`. -/
def ingestElectricity (raw_data : Frame) : Frame :=
  let energy_data := raw_data
  let energy_data : Frame :=
    { energy_data with
      index := (getColumn "UNIX_TS" energy_data).map toDatetimeSeconds }
  dropColumn "UNIX_TS" energy_data

/-- The notebook's interpreter state for the energy data: the raw CSV frame
(`raw_data`, retained for audit) and the working consumption series
(`energy_data` and its cleaned successors). -/
structure NbState where
  raw_data : Frame
  energy : List Row
deriving Repr

/-- The working series the ingestion cell derives: timestamps from the
index, readings from the `Consumption` column. -/
def frameToRows (f : Frame) : List Row :=
  (f.index.zip (getColumn "Consumption" f)).map (fun p => ⟨p.1, some p.2⟩)

/-- The ingestion cell as a state transformer: `raw_data` is only read
(into a copy, `energy_data = raw_data.copy()`), never written. -/
def ingestStep (s : NbState) : NbState :=
  { s with energy := frameToRows (ingestElectricity s.raw_data) }

/-- The cleaning cells as a state transformer: they rewrite only the
working series. -/
def cleanStep (s : NbState) : NbState :=
  { s with energy := cleaner s.energy }

/-- Ingestion followed by cleaning. -/
def cleanPipeline (s : NbState) : NbState := cleanStep (ingestStep s)

/-- One statement of a notebook code cell, as the warnings model needs it:
a library import, a plain setup assignment, the call
`warnings.filterwarnings("ignore")`, or a pipeline statement that may emit
warnings. -/
inductive Stmt where
  | importLib
  | assign
  | filterIgnore
  | stage
deriving DecidableEq, Repr

/-- The download cell (notebook cell 1): three imports, `path = Path()`,
the warnings import, `warnings.filterwarnings("ignore")`, the files
dictionary, and the download loop. -/
def downloadCell : List Stmt :=
  [.importLib, .importLib, .importLib, .assign, .importLib, .filterIgnore,
   .assign, .stage]

/-- The library-import cell (notebook cell 2): four library imports plus
the warnings import, `warnings.filterwarnings("ignore")`, and the display
format option. -/
def importCell : List Stmt :=
  [.importLib, .importLib, .importLib, .importLib, .importLib, .filterIgnore,
   .assign]

/-- The electricity ingestion cell: `read_csv`, `copy`, the index
assignment, and the column drop. -/
def ingestCell : List Stmt := [.stage, .stage, .stage, .stage]

/-- All executable statements of the notebook in order; the remaining code
cells are empty solution placeholders and contribute nothing. -/
def notebookStmts : List Stmt := downloadCell ++ importCell ++ ingestCell

/-- Effect of one statement on the warnings filter:
`warnings.filterwarnings("ignore")` suppresses all later warnings. -/
def runStmt (suppressed : Bool) : Stmt → Bool
  | .filterIgnore => true
  | _ => suppressed

/-- For each pipeline statement in execution order, whether a warning it
emitted would be visible (the filter not yet set when it runs). -/
def stageVisibility (suppressed : Bool) : List Stmt → List Bool
  | [] => []
  | s :: rest =>
    match s with
    | .stage => (!suppressed) :: stageVisibility suppressed rest
    | _ => stageVisibility (runStmt suppressed s) rest

/-- A row of the cleaned, feature-complete table: timestamp, target
consumption, and the candidate feature values in a fixed order. -/
structure FRow where
  ts : Nat
  target : Int
  feats : List Int
deriving DecidableEq, Repr

/-- Modelled from the spec: the Split Manager (the notebook's train/test
split solution cell is an empty placeholder).  A single cutoff timestamp
partitions the table: rows strictly before the cutoff are the train table,
rows from the cutoff onward the test table. -/
def splitByCutoff (table : List FRow) (cutoff : Nat) : List FRow × List FRow :=
  (table.filter (fun r => decide (r.ts < cutoff)),
   table.filter (fun r => decide (cutoff ≤ r.ts)))

/-- Modelled from the spec: the expanding-window, time-ordered Fold Plan
used by both cross-validation loops (the notebook's model-selection
solution cell is an empty placeholder).  With `k` requested folds over
`rows`, each slice holds `rows.length / (k + 1)` rows; fold `i` trains on
the first `i + 1` slices and validates on the following slice, so
successive training sets expand. -/
def foldPlanRows (rows : List FRow) (k : Nat) : List (List FRow × List FRow) :=
  let size := rows.length / (k + 1)
  (List.range k).map (fun i =>
    (rows.take ((i + 1) * size), (rows.drop ((i + 1) * size)).take size))

/-- Modelled from the spec: the univariate screening statistic of the
Feature Selector (the notebook's feature-selection solution cells are empty
placeholders) — an unnormalized covariance magnitude between feature `j`
and the target, the association strength a correlation-type test measures. -/
def covScore (train : List FRow) (j : Nat) : Nat :=
  let xs := train.map (fun r => r.feats.getD j 0)
  let ys := train.map (fun r => r.target)
  ((train.length : Int) * ((xs.zip ys).map (fun p => p.1 * p.2)).sum
    - xs.sum * ys.sum).natAbs

/-- Modelled from the spec: the Feature Selector — keep the feature indices
whose association score with the target reaches the threshold `tau`.  By
contract it receives only the training partition. -/
def featureSelect (numFeats tau : Nat) (train : List FRow) : List Nat :=
  (List.range numFeats).filter (fun j => decide (tau ≤ covScore train j))

/-- The selector as the pipeline runs it: feature selection on the training
partition of the table at `cutoff`. -/
def selectorRun (table : List FRow) (cutoff numFeats tau : Nat) : List Nat :=
  featureSelect numFeats tau (splitByCutoff table cutoff).1

/-- A hyperparameter configuration: named hyperparameter values. -/
structure Config where
  params : List (String × Int)
deriving DecidableEq, Repr

/-- A candidate algorithm: an identifier, its hyperparameter search space,
the minimum number of rows a fold slice must hold for this algorithm to fit
(below it the fold is degenerate), and its training routine — `fit cfg
train` returns the tuned model as a prediction function. -/
structure Algo where
  id : String
  grid : List Config
  minRows : Nat
  fit : Config → List FRow → FRow → ℚ

/-- Actual/predicted pairs of a model over a slice of rows. -/
def predPairs (model : FRow → ℚ) (rows : List FRow) : List (ℚ × ℚ) :=
  rows.map (fun r => ((r.target : ℚ), model r))

/-- Mean squared error of actual/predicted pairs. -/
def mse (pairs : List (ℚ × ℚ)) : ℚ :=
  ((pairs.map (fun p => (p.1 - p.2) ^ 2)).sum) / pairs.length

/-- First element minimizing `f`, scanning left to right (earlier elements
win ties). -/
def argminBy {α β : Type} [LinearOrder β] (f : α → β) : List α → Option α
  | [] => none
  | a :: as => some (as.foldl (fun best x => if f x < f best then x else best) a)

/-- Root-mean-squared error, the spec's metric: `sqrt(mean((a - p)^2))`. -/
noncomputable def rmse (pairs : List (ℚ × ℚ)) : ℝ :=
  Real.sqrt ((mse pairs : ℚ) : ℝ)

/-- Mean of a list of scores. -/
noncomputable def meanR (l : List ℝ) : ℝ := l.sum / l.length

/-- Modelled from the spec: the inner loop's score of one hyperparameter
configuration — mean validation RMSE across the inner expanding-window
folds of the training slice (the notebook's model-selection solution cell
is an empty placeholder). -/
noncomputable def innerScore (alg : Algo) (cfg : Config) (train : List FRow)
    (kI : Nat) : ℝ :=
  meanR ((foldPlanRows train kI).map
    (fun f => rmse (predPairs (alg.fit cfg f.1) f.2)))

/-- Modelled from the spec: the inner hyperparameter-tuning loop — the
configuration of the search space with minimum mean validation RMSE
(earliest wins ties, the documented tie policy). -/
noncomputable def tuneConfig (alg : Algo) (train : List FRow) (kI : Nat) :
    Option Config :=
  argminBy (fun c => innerScore alg c train kI) alg.grid

/-- Modelled from the spec: one outer fold's score of an algorithm — tune
on the fold's training slice, then score the tuned model on the fold's
validation slice. -/
noncomputable def outerFoldScore (alg : Algo) (kI : Nat)
    (f : List FRow × List FRow) : ℝ :=
  match tuneConfig alg f.1 kI with
  | some c => rmse (predPairs (alg.fit c f.1) f.2)
  | none => 0

/-- Modelled from the spec: the outer loop's aggregate — mean outer-fold
RMSE of an algorithm. -/
noncomputable def outerScore (alg : Algo) (train : List FRow) (kO kI : Nat) : ℝ :=
  meanR ((foldPlanRows train kO).map (outerFoldScore alg kI))

/-- Modelled from the spec: the Model Selector — the candidate algorithm of
minimum mean outer RMSE. -/
noncomputable def selectAlgo (algs : List Algo) (train : List FRow)
    (kO kI : Nat) : Option Algo :=
  argminBy (fun a => outerScore a train kO kI) algs

/-- The hyperparameter configuration the selector uses on each outer fold
of an algorithm: the inner loop's best configuration for that fold's
training slice. -/
noncomputable def foldConfigs (alg : Algo) (train : List FRow) (kO kI : Nat) :
    List (Option Config) :=
  (foldPlanRows train kO).map (fun f => tuneConfig alg f.1 kI)

/-- The trivial hyperparameter configuration. -/
def cfg0 : Config := ⟨[]⟩

/-- A concrete six-hour training table for witnesses. -/
def wTrain : List FRow :=
  [⟨0, 1, []⟩, ⟨3600, 2, []⟩, ⟨7200, 3, []⟩,
   ⟨10800, 4, []⟩, ⟨14400, 5, []⟩, ⟨18000, 6, []⟩]

/-- A candidate algorithm predicting the target exactly (zero residual). -/
def algExact : Algo := ⟨"exact", [cfg0], 1, fun _ _ r => (r.target : ℚ)⟩

/-- A candidate algorithm always off by ten (residual 10 on every row). -/
def algOffTen : Algo := ⟨"offten", [cfg0], 1, fun _ _ r => (r.target : ℚ) + 10⟩

/-- Modelled from the spec: a fold is degenerate for a minimum row count
when its training or validation slice has fewer rows than the minimum. -/
def isDegenerate (minRows : Nat) (f : List FRow × List FRow) : Bool :=
  decide (f.1.length < minRows) || decide (f.2.length < minRows)

/-- The folds of a plan that are not degenerate for an algorithm. -/
def viablePlan (alg : Algo) (plan : List (List FRow × List FRow)) :
    List (List FRow × List FRow) :=
  plan.filter (fun f => !isDegenerate alg.minRows f)

/-- One warning per degenerate fold skipped for an algorithm. -/
def skipWarnsFor (alg : Algo) (plan : List (List FRow × List FRow)) :
    List String :=
  (plan.filter (fun f => isDegenerate alg.minRows f)).map
    (fun _ => "warning: skipped degenerate fold: " ++ alg.id)

/-- The warning surfacing an algorithm excluded because all folds were
degenerate. -/
def excludedMsg (alg : Algo) : String :=
  "warning: excluded (all folds degenerate): " ++ alg.id

/-- Modelled from the spec: one algorithm's entry in the comparison —
degenerate folds are skipped with a warning and the score is the mean
outer-fold RMSE over the remaining folds; an algorithm with no viable fold
is excluded (`none`) and the exclusion surfaced as a warning. -/
noncomputable def algoEntry (alg : Algo) (plan : List (List FRow × List FRow))
    (kI : Nat) : Option (Algo × ℝ) × List String :=
  if (viablePlan alg plan).isEmpty then
    (none, skipWarnsFor alg plan ++ [excludedMsg alg])
  else
    (some (alg, meanR ((viablePlan alg plan).map (outerFoldScore alg kI))),
      skipWarnsFor alg plan)

/-- Modelled from the spec: model selection with failure handling —
algorithms are compared on their viable folds' mean RMSE, warnings are
collected, and if every algorithm is excluded the step fails loudly naming
insufficient data, never returning a placeholder model. -/
noncomputable def selectWithHandling (algs : List Algo) (train : List FRow)
    (kO kI : Nat) : Except String (Algo × List String) :=
  match argminBy (fun p => p.2)
      ((algs.map (fun a => algoEntry a (foldPlanRows train kO) kI)).filterMap
        Prod.fst) with
  | some p => .ok (p.1,
      ((algs.map (fun a => algoEntry a (foldPlanRows train kO) kI)).map
        Prod.snd).flatten)
  | none => .error "insufficient data for the requested fold plan"

/-- A candidate whose minimum fold size (100 rows) exceeds every slice of
the witness fold plan, so all its folds are degenerate. -/
def algTiny : Algo := ⟨"tiny", [cfg0], 100, fun _ _ _ => 0⟩

theorem zeroFillAux_eq_self (l : List Row)
    (h : ∀ r ∈ l, validReading r.consumption = true) :
    ∀ c, zeroFillAux c l = l := by
  induction l with
  | nil => intro c; rfl
  | cons r rs ih =>
    intro c
    have hr := h r (List.mem_cons_self r rs)
    have hrs : ∀ x ∈ rs, validReading x.consumption = true :=
      fun x hx => h x (List.mem_cons_of_mem r hx)
    obtain ⟨t, cns⟩ := r
    match cns with
    | some v =>
      simp only [validReading, bne_iff_ne, ne_eq] at hr
      simp [zeroFillAux, hr, ih hrs]
    | none => simp [validReading] at hr

theorem nullFillAux_eq_self (l : List Row)
    (h : ∀ r ∈ l, (r.consumption).isSome = true) :
    ∀ c, nullFillAux c l = l := by
  induction l with
  | nil => intro c; rfl
  | cons r rs ih =>
    intro c
    have hr := h r (List.mem_cons_self r rs)
    have hrs : ∀ x ∈ rs, (x.consumption).isSome = true :=
      fun x hx => h x (List.mem_cons_of_mem r hx)
    obtain ⟨t, cns⟩ := r
    match cns with
    | some v => simp [nullFillAux, ih hrs]
    | none => simp at hr

theorem resampleAux_eq (rs : List Row) :
    ∀ t v, t % 3600 = 0 → gridFrom t rs = true →
      (∀ x ∈ rs, (x.consumption).isSome = true) →
      resampleAux (t / 3600) v rs = ⟨t, some v⟩ :: rs := by
  induction rs with
  | nil =>
    intro t v ht _ _
    simp [resampleAux, Nat.div_mul_cancel (Nat.dvd_of_mod_eq_zero ht)]
  | cons r rs ih =>
    intro t v ht hg hs
    simp only [gridFrom, Bool.and_eq_true, beq_iff_eq] at hg
    obtain ⟨hts, hg'⟩ := hg
    have hr := hs r (List.mem_cons_self r rs)
    have hrs : ∀ x ∈ rs, (x.consumption).isSome = true :=
      fun x hx => hs x (List.mem_cons_of_mem r hx)
    have hkey : hourKey r = t / 3600 + 1 := by
      simp [hourKey, hts, Nat.add_div_right]
    have hne : (hourKey r == t / 3600) = false := by
      simp [hkey]
    have ht' : r.ts % 3600 = 0 := by
      rw [hts, Nat.add_mod, ht]
    obtain ⟨w, hw⟩ := Option.isSome_iff_exists.mp hr
    have hrec := ih r.ts (r.consumption.getD 0) ht' hg' hrs
    have step : resampleAux (t / 3600) v (r :: rs) =
        ⟨t / 3600 * 3600, some v⟩ ::
          resampleAux (hourKey r) (r.consumption.getD 0) rs := by
      simp [resampleAux, hne]
    rw [step, show hourKey r = r.ts / 3600 from rfl, hrec,
      Nat.div_mul_cancel (Nat.dvd_of_mod_eq_zero ht)]
    congr 2
    cases r
    simp_all

theorem resampleHourly_eq_self (rows : List Row)
    (hg : hourlyGrid rows = true)
    (hs : ∀ x ∈ rows, (x.consumption).isSome = true) :
    resampleHourly rows = rows := by
  match rows with
  | [] => rfl
  | r :: rs =>
    simp only [hourlyGrid, Bool.and_eq_true, beq_iff_eq] at hg
    obtain ⟨ht, hg'⟩ := hg
    have hr := hs r (List.mem_cons_self r rs)
    have hrs : ∀ x ∈ rs, (x.consumption).isSome = true :=
      fun x hx => hs x (List.mem_cons_of_mem r hx)
    obtain ⟨w, hw⟩ := Option.isSome_iff_exists.mp hr
    show resampleAux (hourKey r) (r.consumption.getD 0) rs = r :: rs
    rw [show hourKey r = r.ts / 3600 from rfl,
      resampleAux_eq rs r.ts _ ht hg' hrs]
    congr 1
    cases r
    simp at hw ⊢
    rw [hw]
    simp

theorem zeroFillAux_append (xs : List Row) :
    ∀ c ys, zeroFillAux c (xs ++ ys) =
      zeroFillAux c xs ++ zeroFillAux (lastValidFrom c xs) ys := by
  induction xs with
  | nil => intro c ys; rfl
  | cons r rs ih =>
    intro c ys
    obtain ⟨t, cns⟩ := r
    match cns with
    | some v =>
      by_cases hv : v = 0
      · subst hv
        match c with
        | some u => simp [zeroFillAux, lastValidFrom, validReading, ih]
        | none => simp [zeroFillAux, lastValidFrom, validReading, ih]
      · simp [zeroFillAux, lastValidFrom, validReading, hv, ih]
    | none => simp [zeroFillAux, lastValidFrom, validReading, ih]

/-- C5: the Cleaner's zero-value forward-fill replaces each reading equal to
0 by the nearest preceding non-zero, non-null reading in timestamp order
(the carry `lastValid xs` of the series before the defect), and the scan
continues with that carry; in particular, on an hourly series with a single
zero reading between neighbors 50 and 54, the full Cleaner turns the defect
row into 50 — never 0 and never the neighbors' average. -/
theorem zeroFill_defect_replacement (xs ys : List Row) (t : Nat) (w : Int)
    (h : lastValid xs = some w) :
    zeroFill (xs ++ ⟨t, some 0⟩ :: ys) =
      zeroFill xs ++ ⟨t, some w⟩ :: zeroFillAux (some w) ys ∧
    cleaner [⟨0, some 50⟩, ⟨3600, some 0⟩, ⟨7200, some 54⟩] =
      [⟨0, some 50⟩, ⟨3600, some 50⟩, ⟨7200, some 54⟩] := by
  constructor
  · rw [zeroFill, zeroFillAux_append, zeroFill]
    have h' : lastValidFrom none xs = some w := h
    rw [h']
    simp [zeroFillAux]
  · decide

/-- Witness for C5 at the spec's scenario: series 50, 0, 54 with the defect
mid-series; the defect row becomes 50. -/
theorem zeroFill_defect_replacement_witness :
    zeroFill ([⟨0, some 50⟩] ++ ⟨60, some 0⟩ :: [⟨120, some 54⟩]) =
      zeroFill [⟨0, some 50⟩] ++ ⟨60, some 50⟩ :: zeroFillAux (some 50) [⟨120, some 54⟩] :=
  (zeroFill_defect_replacement [⟨0, some 50⟩] [⟨120, some 54⟩] 60 50 (by decide)).1

/-- C7: the Cleaner is the identity on an already-clean table — no zero
readings, no nulls, and a contiguous hourly timestamp grid. -/
theorem cleaner_id_on_clean (rows : List Row)
    (hg : hourlyGrid rows = true) (hd : noDefects rows = true) :
    cleaner rows = rows := by
  have hvalid : ∀ r ∈ rows, validReading r.consumption = true := by
    simpa [noDefects, List.all_eq_true] using hd
  have hsome : ∀ r ∈ rows, (r.consumption).isSome = true := by
    intro r hr
    have hv := hvalid r hr
    match hc : r.consumption with
    | some v => rfl
    | none => rw [hc] at hv; simp [validReading] at hv
  rw [cleaner, zeroFill, zeroFillAux_eq_self rows hvalid,
    resampleHourly_eq_self rows hg hsome, nullFill, nullFillAux_eq_self rows hsome]

/-- Witness for C7 on a concrete clean two-hour table. -/
theorem cleaner_id_on_clean_witness :
    cleaner [⟨0, some 50⟩, ⟨3600, some 54⟩] = [⟨0, some 50⟩, ⟨3600, some 54⟩] :=
  cleaner_id_on_clean [⟨0, some 50⟩, ⟨3600, some 54⟩] (by decide) (by decide)

/-- C9: on any electricity CSV — a `UNIX_TS` column and a `Consumption`
column — the ingestion cell yields the table indexed by the datetimes
obtained from `UNIX_TS` as whole seconds since the epoch, holding only the
consumption column. -/
theorem ingestElectricity_spec (idx : List Nat) (ts cs : List Int) :
    ingestElectricity ⟨idx, [("UNIX_TS", ts), ("Consumption", cs)]⟩ =
      ⟨ts.map toDatetimeSeconds, [("Consumption", cs)]⟩ := by
  simp [ingestElectricity, getColumn, dropColumn, List.find?, List.filter]

/-- C8: cleaning has no side effect on the retained raw input — after
ingestion (which copies) and cleaning, `raw_data` is unchanged. -/
theorem cleanPipeline_preserves_raw (s : NbState) :
    (cleanPipeline s).raw_data = s.raw_data := rfl

/-- C10: both the download cell and the import cell call
`warnings.filterwarnings("ignore")`, in each cell no pipeline statement
precedes that call, and executing the whole notebook every pipeline
statement runs with warnings suppressed (no visible warning anywhere). -/
theorem notebook_warnings_suppressed :
    (downloadCell.contains .filterIgnore ∧ importCell.contains .filterIgnore) ∧
    (∀ s ∈ downloadCell.takeWhile (fun s => s != .filterIgnore), s ≠ .stage) ∧
    (∀ s ∈ importCell.takeWhile (fun s => s != .filterIgnore), s ≠ .stage) ∧
    (stageVisibility false notebookStmts).all (fun v => v = false) = true := by
  decide

/-- C3: the Split Manager output is a perfect partition of the timeline:
train rows are strictly before the cutoff, test rows at or after it, no
timestamp is on both sides, and train joined with test is a permutation of
the input table (every row, hence every timestamp, kept exactly once). -/
theorem splitByCutoff_partitions (table : List FRow) (cutoff : Nat) :
    (∀ r ∈ (splitByCutoff table cutoff).1, r.ts < cutoff) ∧
    (∀ r ∈ (splitByCutoff table cutoff).2, cutoff ≤ r.ts) ∧
    (∀ r1 ∈ (splitByCutoff table cutoff).1,
      ∀ r2 ∈ (splitByCutoff table cutoff).2, r1.ts ≠ r2.ts) ∧
    List.Perm ((splitByCutoff table cutoff).1 ++ (splitByCutoff table cutoff).2)
      table := by
  refine ⟨?_, ?_, ?_, ?_⟩
  · intro r hr
    exact of_decide_eq_true (List.mem_filter.mp hr).2
  · intro r hr
    exact of_decide_eq_true (List.mem_filter.mp hr).2
  · intro r1 h1 r2 h2
    have hlt := of_decide_eq_true (List.mem_filter.mp h1).2
    have hge := of_decide_eq_true (List.mem_filter.mp h2).2
    omega
  · have hcongr : table.filter (fun r => decide (cutoff ≤ r.ts)) =
        table.filter (fun r => !decide (r.ts < cutoff)) := by
      apply List.filter_congr
      intro x _
      rw [← decide_not, decide_eq_decide]
      omega
    rw [show (splitByCutoff table cutoff).1 =
        table.filter (fun r => decide (r.ts < cutoff)) from rfl,
      show (splitByCutoff table cutoff).2 =
        table.filter (fun r => decide (cutoff ≤ r.ts)) from rfl, hcongr]
    exact List.filter_append_perm _ table

/-- C2: in every Fold Plan over a time-sorted table, every validation row
is strictly later in time than every training row of the same fold, and
each successive fold's training set contains the previous fold's (expanding
window). -/
theorem foldPlan_temporal_expanding (rows : List FRow) (k : Nat)
    (hsort : List.Pairwise (fun a b => a.ts < b.ts) rows) :
    (∀ p ∈ foldPlanRows rows k, ∀ a ∈ p.1, ∀ b ∈ p.2, a.ts < b.ts) ∧
    (∀ i, i + 1 < k →
      ∀ x ∈ ((foldPlanRows rows k).getD i ([], [])).1,
        x ∈ ((foldPlanRows rows k).getD (i + 1) ([], [])).1) := by
  constructor
  · intro p hp a ha b hb
    simp only [foldPlanRows, List.mem_map, List.mem_range] at hp
    obtain ⟨i, _, hpi⟩ := hp
    subst hpi
    simp only at ha hb
    set m := (i + 1) * (rows.length / (k + 1)) with hm
    have hsplit : List.Pairwise (fun a b : FRow => a.ts < b.ts)
        (rows.take m ++ rows.drop m) := by
      rw [List.take_append_drop]; exact hsort
    have hcross := (List.pairwise_append.mp hsplit).2.2
    exact hcross a ha b (List.take_subset _ _ hb)
  · intro i hik x hx
    have hsize : ∀ j, j < k →
        (foldPlanRows rows k).getD j ([], []) =
          (rows.take ((j + 1) * (rows.length / (k + 1))),
           (rows.drop ((j + 1) * (rows.length / (k + 1)))).take
             (rows.length / (k + 1))) := by
      intro j hj
      simp [foldPlanRows, List.getD, List.getElem?_map, List.getElem?_range, hj]
    rw [hsize i (by omega)] at hx
    rw [hsize (i + 1) hik]
    simp only at hx ⊢
    have hle : (i + 1) * (rows.length / (k + 1)) ≤
        (i + 2) * (rows.length / (k + 1)) :=
      Nat.mul_le_mul_right _ (by omega)
    have : rows.take ((i + 1) * (rows.length / (k + 1))) =
        (rows.take ((i + 2) * (rows.length / (k + 1)))).take
          ((i + 1) * (rows.length / (k + 1))) := by
      rw [List.take_take, Nat.min_eq_left hle]
    rw [this] at hx
    exact List.take_subset _ _ hx

/-- Witness for C2: the fold plan of a concrete sorted three-row table with
two requested folds. -/
theorem foldPlan_temporal_expanding_witness :
    (∀ p ∈ foldPlanRows [⟨0, 5, []⟩, ⟨3600, 6, []⟩, ⟨7200, 7, []⟩] 2,
      ∀ a ∈ p.1, ∀ b ∈ p.2, a.ts < b.ts) ∧
    (∀ i, i + 1 < 2 →
      ∀ x ∈ ((foldPlanRows [⟨0, 5, []⟩, ⟨3600, 6, []⟩, ⟨7200, 7, []⟩] 2).getD i
          ([], [])).1,
        x ∈ ((foldPlanRows [⟨0, 5, []⟩, ⟨3600, 6, []⟩, ⟨7200, 7, []⟩] 2).getD
            (i + 1) ([], [])).1) :=
  foldPlan_temporal_expanding [⟨0, 5, []⟩, ⟨3600, 6, []⟩, ⟨7200, 7, []⟩] 2
    (by decide)

/-- C4: the Feature Selector's output depends only on the training
partition — appending any rows with timestamps at or after the cutoff to
the full table leaves the selected feature set unchanged (test-partition
rows never influence selection). -/
theorem selectorRun_noninterference (table extra : List FRow)
    (cutoff numFeats tau : Nat) (h : ∀ r ∈ extra, cutoff ≤ r.ts) :
    selectorRun (table ++ extra) cutoff numFeats tau =
      selectorRun table cutoff numFeats tau := by
  have htrain : (splitByCutoff (table ++ extra) cutoff).1 =
      (splitByCutoff table cutoff).1 := by
    show (table ++ extra).filter (fun r => decide (r.ts < cutoff)) =
      table.filter (fun r => decide (r.ts < cutoff))
    rw [List.filter_append]
    have hnil : extra.filter (fun r => decide (r.ts < cutoff)) = [] := by
      rw [List.filter_eq_nil_iff]
      intro r hr
      have := h r hr
      simp
      omega
    rw [hnil, List.append_nil]
  rw [selectorRun, htrain]
  rfl

/-- Witness for C4: a one-row table with a one-row future extension past
the cutoff; the selected feature set is unchanged. -/
theorem selectorRun_noninterference_witness :
    selectorRun ([⟨0, 5, [1]⟩] ++ [⟨7200, 9, [3]⟩]) 3600 1 0 =
      selectorRun [⟨0, 5, [1]⟩] 3600 1 0 :=
  selectorRun_noninterference [⟨0, 5, [1]⟩] [⟨7200, 9, [3]⟩] 3600 1 0
    (by decide)

theorem foldl_argmin_mem {α β : Type} [LinearOrder β] (f : α → β)
    (l : List α) (a : α) :
    l.foldl (fun best x => if f x < f best then x else best) a ∈ a :: l := by
  induction l generalizing a with
  | nil => simp
  | cons b bs ih =>
    simp only [List.foldl_cons]
    by_cases h : f b < f a
    · rw [if_pos h]
      have := ih b
      simp only [List.mem_cons] at this ⊢
      tauto
    · rw [if_neg h]
      have := ih a
      simp only [List.mem_cons] at this ⊢
      tauto

theorem foldl_argmin_le {α β : Type} [LinearOrder β] (f : α → β)
    (l : List α) (a : α) :
    f (l.foldl (fun best x => if f x < f best then x else best) a) ≤ f a ∧
    ∀ y ∈ l, f (l.foldl (fun best x => if f x < f best then x else best) a) ≤ f y := by
  induction l generalizing a with
  | nil => simp
  | cons b bs ih =>
    simp only [List.foldl_cons]
    by_cases h : f b < f a
    · rw [if_pos h]
      obtain ⟨h1, h2⟩ := ih b
      refine ⟨le_trans h1 (le_of_lt h), ?_⟩
      intro y hy
      rcases List.mem_cons.mp hy with rfl | hy
      · exact h1
      · exact h2 y hy
    · rw [if_neg h]
      obtain ⟨h1, h2⟩ := ih a
      refine ⟨h1, ?_⟩
      intro y hy
      rcases List.mem_cons.mp hy with rfl | hy
      · exact le_trans h1 (not_lt.mp h)
      · exact h2 y hy

theorem argminBy_mem {α β : Type} [LinearOrder β] (f : α → β) (l : List α)
    (x : α) (h : argminBy f l = some x) : x ∈ l := by
  match l with
  | [] => cases h
  | a :: as =>
    simp only [argminBy, Option.some.injEq] at h
    subst h
    exact foldl_argmin_mem f as a

theorem argminBy_le {α β : Type} [LinearOrder β] (f : α → β) (l : List α)
    (x : α) (h : argminBy f l = some x) : ∀ y ∈ l, f x ≤ f y := by
  match l with
  | [] => cases h
  | a :: as =>
    simp only [argminBy, Option.some.injEq] at h
    subst h
    intro y hy
    rcases List.mem_cons.mp hy with rfl | hy
    · exact (foldl_argmin_le f as y).1
    · exact (foldl_argmin_le f as a).2 y hy

theorem map_sum_lt_map_sum {γ : Type} (l : List γ) (f g : γ → ℝ)
    (hne : l ≠ []) (h : ∀ x ∈ l, f x < g x) :
    (l.map f).sum < (l.map g).sum := by
  induction l with
  | nil => exact absurd rfl hne
  | cons x xs ih =>
    match xs with
    | [] =>
      simp only [List.map_cons, List.map_nil, List.sum_cons, List.sum_nil]
      have := h x (List.mem_cons_self x [])
      linarith
    | y :: ys =>
      simp only [List.map_cons, List.sum_cons] at ih ⊢
      have hx := h x (List.mem_cons_self x (y :: ys))
      have hrest := ih (List.cons_ne_nil y ys)
        (fun z hz => h z (List.mem_cons_of_mem x hz))
      simp only [List.map_cons, List.sum_cons] at hrest
      linarith

/-- C1: with a non-empty candidate list the Model Selector returns an
algorithm whose mean outer-fold RMSE is minimal among all candidates; every
configuration the inner loop returns has minimum mean validation RMSE over
the search space; and when one of two candidates scores strictly lower
validation RMSE on every outer fold, that candidate is selected, with the
per-fold chosen hyperparameters equal to the inner loop's best
configuration for the corresponding outer training slice. -/
theorem modelSelector_selects_min_rmse (algs : List Algo) (A B : Algo)
    (train : List FRow) (kO kI : Nat) (hne : algs ≠ []) (hkO : 0 < kO)
    (hdom : ∀ f ∈ foldPlanRows train kO,
      outerFoldScore A kI f < outerFoldScore B kI f) :
    (∃ s, selectAlgo algs train kO kI = some s ∧ s ∈ algs ∧
      ∀ a ∈ algs, outerScore s train kO kI ≤ outerScore a train kO kI) ∧
    (∀ (alg : Algo) (tr : List FRow) (k : Nat) (c0 : Config),
      tuneConfig alg tr k = some c0 →
        c0 ∈ alg.grid ∧
        ∀ c ∈ alg.grid, innerScore alg c0 tr k ≤ innerScore alg c tr k) ∧
    (selectAlgo [A, B] train kO kI = some A ∧
      foldConfigs A train kO kI =
        (foldPlanRows train kO).map (fun f => tuneConfig A f.1 kI)) := by
  refine ⟨?_, ?_, ?_, rfl⟩
  · match algs, hne with
    | a :: as, _ =>
      exact ⟨_, rfl,
        argminBy_mem (fun x => outerScore x train kO kI) (a :: as) _ rfl,
        argminBy_le (fun x => outerScore x train kO kI) (a :: as) _ rfl⟩
  · intro alg tr k c0 h
    exact ⟨argminBy_mem _ alg.grid c0 h, argminBy_le _ alg.grid c0 h⟩
  · have hplanlen : (foldPlanRows train kO).length = kO := by
      simp [foldPlanRows]
    have hplan_ne : foldPlanRows train kO ≠ [] := by
      intro hempty
      rw [hempty] at hplanlen
      simp at hplanlen
      omega
    have hsum := map_sum_lt_map_sum (foldPlanRows train kO)
      (outerFoldScore A kI) (outerFoldScore B kI) hplan_ne hdom
    have hlen : (0 : ℝ) < ((foldPlanRows train kO).length : ℝ) := by
      rw [hplanlen]
      exact_mod_cast hkO
    have hscore : outerScore A train kO kI < outerScore B train kO kI := by
      rw [outerScore, outerScore, meanR, meanR]
      simp only [List.length_map]
      exact div_lt_div_of_pos_right hsum hlen
    show argminBy (fun a => outerScore a train kO kI) [A, B] = some A
    simp only [argminBy, List.foldl_cons, List.foldl_nil]
    rw [if_neg (not_lt.mpr (le_of_lt hscore))]

theorem mse_exact_fit (rows tr : List FRow) (cfg : Config) :
    mse (predPairs (algExact.fit cfg tr) rows) = 0 := by
  have hmap : (predPairs (algExact.fit cfg tr) rows).map
      (fun p => (p.1 - p.2) ^ 2) = rows.map (fun _ => (0 : ℚ)) := by
    simp only [predPairs, List.map_map]
    apply List.map_congr_left
    intro r _
    simp only [Function.comp, algExact]
    ring
  rw [mse, hmap]
  simp

theorem mse_offten_fit (rows tr : List FRow) (cfg : Config)
    (h : rows ≠ []) :
    mse (predPairs (algOffTen.fit cfg tr) rows) = 100 := by
  have hmap : (predPairs (algOffTen.fit cfg tr) rows).map
      (fun p => (p.1 - p.2) ^ 2) = rows.map (fun _ => (100 : ℚ)) := by
    simp only [predPairs, List.map_map]
    apply List.map_congr_left
    intro r _
    simp only [Function.comp, algOffTen]
    ring
  have hlen : ((rows.length : ℚ)) ≠ 0 := by
    simp only [ne_eq, Nat.cast_eq_zero, List.length_eq_zero]
    exact h
  rw [mse, hmap]
  have hsum : (rows.map (fun _ => (100 : ℚ))).sum = 100 * rows.length := by
    rw [List.map_const', List.sum_replicate, nsmul_eq_mul]
    ring
  rw [hsum]
  have hplen : (predPairs (algOffTen.fit cfg tr) rows).length = rows.length := by
    simp [predPairs]
  rw [hplen]
  field_simp

/-- Witness for C1: with the exact predictor against an always-off-by-ten
predictor on a concrete six-row training table — per-fold dominance holds —
the Model Selector picks the exact predictor. -/
theorem modelSelector_selects_min_rmse_witness :
    selectAlgo [algExact, algOffTen] wTrain 2 1 = some algExact :=
  (modelSelector_selects_min_rmse [algExact, algOffTen] algExact algOffTen
    wTrain 2 1 (List.cons_ne_nil _ _) (by norm_num) (by
      intro f hf
      have hplan : foldPlanRows wTrain 2 =
          [([⟨0, 1, []⟩, ⟨3600, 2, []⟩], [⟨7200, 3, []⟩, ⟨10800, 4, []⟩]),
           ([⟨0, 1, []⟩, ⟨3600, 2, []⟩, ⟨7200, 3, []⟩, ⟨10800, 4, []⟩],
            [⟨14400, 5, []⟩, ⟨18000, 6, []⟩])] := by decide
      rw [hplan] at hf
      simp only [List.mem_cons, List.not_mem_nil, or_false] at hf
      rcases hf with rfl | rfl
      · show rmse (predPairs
            (algExact.fit cfg0 [⟨0, 1, []⟩, ⟨3600, 2, []⟩])
            [⟨7200, 3, []⟩, ⟨10800, 4, []⟩]) <
          rmse (predPairs
            (algOffTen.fit cfg0 [⟨0, 1, []⟩, ⟨3600, 2, []⟩])
            [⟨7200, 3, []⟩, ⟨10800, 4, []⟩])
        rw [rmse, rmse, mse_exact_fit, mse_offten_fit _ _ _ (by decide),
          Rat.cast_zero, Real.sqrt_zero]
        exact Real.sqrt_pos.mpr (by norm_num)
      · show rmse (predPairs
            (algExact.fit cfg0
              [⟨0, 1, []⟩, ⟨3600, 2, []⟩, ⟨7200, 3, []⟩, ⟨10800, 4, []⟩])
            [⟨14400, 5, []⟩, ⟨18000, 6, []⟩]) <
          rmse (predPairs
            (algOffTen.fit cfg0
              [⟨0, 1, []⟩, ⟨3600, 2, []⟩, ⟨7200, 3, []⟩, ⟨10800, 4, []⟩])
            [⟨14400, 5, []⟩, ⟨18000, 6, []⟩])
        rw [rmse, rmse, mse_exact_fit, mse_offten_fit _ _ _ (by decide),
          Rat.cast_zero, Real.sqrt_zero]
        exact Real.sqrt_pos.mpr (by norm_num))).2.2.1

/-- C6: degenerate folds are skipped with a warning and an algorithm's
comparison score uses only the remaining folds; an algorithm all of whose
folds are degenerate enters the comparison as excluded and the exclusion is
surfaced in the returned warnings; a selected algorithm always had a viable
fold; and when every algorithm is excluded the step fails loudly naming
insufficient data for the requested fold plan instead of returning a model. -/
theorem selection_failure_handling (algs : List Algo) (train : List FRow)
    (kO kI : Nat) :
    (∀ alg, viablePlan alg (foldPlanRows train kO) ≠ [] →
      algoEntry alg (foldPlanRows train kO) kI =
        (some (alg, meanR ((viablePlan alg (foldPlanRows train kO)).map
          (outerFoldScore alg kI))),
         skipWarnsFor alg (foldPlanRows train kO))) ∧
    (∀ alg ∈ algs, viablePlan alg (foldPlanRows train kO) = [] →
      (algoEntry alg (foldPlanRows train kO) kI).1 = none ∧
      ∀ a ws, selectWithHandling algs train kO kI = .ok (a, ws) →
        excludedMsg alg ∈ ws) ∧
    (∀ a ws, selectWithHandling algs train kO kI = .ok (a, ws) →
      viablePlan a (foldPlanRows train kO) ≠ []) ∧
    ((∀ alg ∈ algs, viablePlan alg (foldPlanRows train kO) = []) →
      selectWithHandling algs train kO kI =
        .error "insufficient data for the requested fold plan") := by
  refine ⟨?_, ?_, ?_, ?_⟩
  · intro alg h
    rw [algoEntry, if_neg]
    simp [List.isEmpty_iff, h]
  · intro alg halg hviable
    constructor
    · rw [algoEntry, if_pos (by simp [List.isEmpty_iff, hviable])]
    · intro a ws hok
      rw [selectWithHandling] at hok
      split at hok
      · rename_i p heq
        obtain ⟨rfl, rfl⟩ : p.1 = a ∧
            ((algs.map (fun x => algoEntry x (foldPlanRows train kO) kI)).map
              Prod.snd).flatten = ws := by
          exact ⟨congrArg (·.1) (Except.ok.inj hok) |>.symm ▸ rfl, by
            cases Except.ok.inj hok; rfl⟩
        apply List.mem_flatten.mpr
        refine ⟨(algoEntry alg (foldPlanRows train kO) kI).2, ?_, ?_⟩
        · exact List.mem_map_of_mem Prod.snd
            (List.mem_map_of_mem _ halg)
        · rw [algoEntry, if_pos (by simp [List.isEmpty_iff, hviable])]
          simp
      · exact absurd hok (by simp)
  · intro a ws hok
    rw [selectWithHandling] at hok
    split at hok
    · rename_i p heq
      have hmem := argminBy_mem _ _ _ heq
      obtain ⟨b, hb, hfst⟩ := List.mem_filterMap.mp hmem
      obtain ⟨c, hc, rfl⟩ := List.mem_map.mp hb
      by_cases hemp : (viablePlan c (foldPlanRows train kO)).isEmpty = true
      · rw [algoEntry, if_pos hemp] at hfst
        simp at hfst
      · rw [algoEntry, if_neg hemp] at hfst
        simp only [Option.some.injEq] at hfst
        have hp1 : p.1 = c := by rw [← hfst]
        have ha : a = c := by
          have := Except.ok.inj hok
          have h1 : p.1 = a := congrArg Prod.fst this
          rw [← h1, hp1]
        rw [ha]
        intro hnil
        exact hemp (by simp [List.isEmpty_iff, hnil])
    · exact absurd hok (by simp)
  · intro hall
    have hnil : ((algs.map (fun a => algoEntry a (foldPlanRows train kO) kI)).filterMap
        Prod.fst) = [] := by
      rw [List.filterMap_eq_nil_iff]
      intro b hb
      obtain ⟨c, hc, rfl⟩ := List.mem_map.mp hb
      rw [algoEntry, if_pos (by simp [List.isEmpty_iff, hall c hc])]
    rw [selectWithHandling, hnil]
    rfl

/-- Witness for C6: with the only candidate requiring 100-row folds on the
six-row table, every algorithm is excluded and selection fails loudly. -/
theorem selection_failure_handling_witness :
    selectWithHandling [algTiny] wTrain 2 1 =
      .error "insufficient data for the requested fold plan" :=
  (selection_failure_handling [algTiny] wTrain 2 1).2.2.2 (by
    intro alg halg
    rw [List.mem_singleton] at halg
    subst halg
    decide)
